import Mathlib

/-!
Verification of the core engines of the mail-download tool: the retention
expression parser (`src/config.py`), the filename policy (sanitization and
collision resolution), the per-message download engine (`src/archiver.py`),
the per-file upload engine (`src/uploader.py`) and the retention deletion
engine.  Strings are embedded as `List Char`, raw byte strings as `List Nat`,
the local filesystem as an explicit record of directories and files, and the
remote IMAP/SMB collaborators as records of response functions.
-/

set_option autoImplicit false

/-- Character lists stand for Python strings. -/
abbrev Chars := List Char

/-- Byte lists stand for Python `bytes` values. -/
abbrev Bytes := List Nat

/-! ## Shared string helpers (Python built-ins used by the sources) -/

/-- Test for an ASCII decimal digit, the characters matched by the digit
class of the retention regex on the inputs considered here. -/
def isAsciiDigit (c : Char) : Bool := 48 ≤ c.toNat && c.toNat ≤ 57

/-- Whitespace stripped by Python `str.strip()` (ASCII range). -/
def isPySpace (c : Char) : Bool :=
  c = ' ' || c = '\t' || c = '\n' || c = '\r' || c.toNat = 11 || c.toNat = 12

/-- Python `str.strip()`: drop leading and trailing whitespace. -/
def pyStrip (s : Chars) : Chars :=
  ((s.dropWhile isPySpace).reverse.dropWhile isPySpace).reverse

/-- Python `str.strip(c)` for a single character. -/
def stripChar (c : Char) (s : Chars) : Chars :=
  ((s.dropWhile (· = c)).reverse.dropWhile (· = c)).reverse

/-- Python `str.rstrip(c)` for a single character. -/
def rstripChar (c : Char) (s : Chars) : Chars :=
  (s.reverse.dropWhile (· = c)).reverse

/-- Value of a digit string, the way Python `int()` reads it. -/
def digitsVal (ds : Chars) : Nat := ds.foldl (fun a c => a * 10 + (c.toNat - 48)) 0

/-- Python `str.upper()` restricted to one ASCII character. -/
def toUpperAscii (c : Char) : Char :=
  if 97 ≤ c.toNat && c.toNat ≤ 122 then Char.ofNat (c.toNat - 32) else c

/-- Decimal rendering of a natural number, as Python string interpolation
produces for a non-negative `int`. -/
def natChars (n : Nat) : Chars :=
  if _h : n < 10 then [Char.ofNat (48 + n)]
  else natChars (n / 10) ++ [Char.ofNat (48 + n % 10)]
termination_by n
decreasing_by exact Nat.div_lt_self (by omega) (by omega)

/-- Helper used by `rfind`: scan left to right remembering the last hit. -/
def rfindAux (c : Char) : Chars → Int → Int → Int
  | [], _, acc => acc
  | x :: xs, i, acc => rfindAux c xs (i + 1) (if x = c then i else acc)

/-- Python `str.rfind(c)`: index of the last occurrence, `-1` if absent. -/
def rfind (c : Char) (p : Chars) : Int := rfindAux c p 0 (-1)

/-- Helper for `splitOnChar`, accumulating the current field reversed. -/
def splitOnCharAux (sep : Char) : Chars → Chars → List Chars
  | [], cur => [cur.reverse]
  | c :: cs, cur =>
    if c = sep then cur.reverse :: splitOnCharAux sep cs []
    else splitOnCharAux sep cs (c :: cur)

/-- Python `str.split(sep)` for a one-character separator (keeps empty
fields, as Python does). -/
def splitOnChar (sep : Char) (s : Chars) : List Chars := splitOnCharAux sep s []

/-- Test whether `sub` is a leading segment of `s`. -/
def isLeading : Chars → Chars → Bool
  | [], _ => true
  | _ :: _, [] => false
  | a :: as, b :: bs => a = b && isLeading as bs

/-- Python substring membership `sub in s`. -/
def containsSub (sub : Chars) : Chars → Bool
  | [] => sub.isEmpty
  | c :: rest => isLeading sub (c :: rest) || containsSub sub rest

/-! ## Retention expression parser — `parse_time_range` in `src/config.py` -/

namespace Config

/-- Unit letters admitted by the regex character class of
`parse_time_range`. -/
def unitLetters : Chars := ['D', 'd', 'M', 'm', 'Y', 'y', 'W', 'w']

/-- Anchored match of the retention regex (digits then one unit letter)
against an already-stripped string; returns the two capture groups. -/
def reMatch (s : Chars) : Option (Chars × Char) :=
  match s.reverse with
  | [] => none
  | u :: rds =>
    let ds := rds.reverse
    if !ds.isEmpty && ds.all isAsciiDigit && unitLetters.contains u then some (ds, u)
    else none

/-- Failure values raised by `parse_time_range`: the regex-mismatch error
and the (dead) fall-through error after the four unit branches. -/
inductive ParseError where
  | invalidFormat (input : Chars)
  | unknownUnit (unit : Char)
deriving DecidableEq

/-- Message text of the regex-mismatch `ValueError` of `parse_time_range`. -/
def invalidFormatMsg (s : Chars) : Chars :=
  "Invalid time range format: '".data ++ s ++
    "'. Use formats like: 30D (days), 6M (months), 1Y (years), 2W (weeks)".data

/-- Embedding of `parse_time_range` from `src/config.py`; the result is the
parsed duration as a number of days (every branch builds a `timedelta` that
is a whole number of days). -/
def parse_time_range (s : Chars) : Except ParseError Nat :=
  match reMatch (pyStrip s) with
  | none => .error (.invalidFormat s)
  | some (ds, u) =>
    let value := digitsVal ds
    let unit := toUpperAscii u
    if unit = 'D' then .ok value
    else if unit = 'W' then .ok (7 * value)
    else if unit = 'M' then .ok (30 * value)
    else if unit = 'Y' then .ok (365 * value)
    else .error (.unknownUnit unit)

/-- Days-per-unit table as the spec words it: `D` is days, `W` weeks of 7
days, `M` months of 30 days, `Y` years of 365 days. -/
def unitFactor (u : Char) : Nat :=
  if u = 'D' || u = 'd' then 1
  else if u = 'W' || u = 'w' then 7
  else if u = 'M' || u = 'm' then 30
  else 365

end Config

/-! ## Name policy — sanitization and collision resolution -/

namespace NamePolicy

/-- Characters the sanitizer removes: the path-hostile set named by the
spec (colon, slash, backslash, double quote, angle brackets) and every
code point below 32. -/
def isInvalidChar (c : Char) : Bool :=
  c = ':' || c = '/' || c = '\\' || c = '"' || c = '<' || c = '>' || c.toNat < 32

/-- Modelled from the spec: `pathvalidate.sanitize_filename`, used by
`src/archiver.py`, is not part of this repository's sources.  Per the spec
(NamePolicy, §4.1) it removes characters invalid in filesystem or SMB path
segments — colon, slash, backslash, quote, angle brackets, control
characters — and preserves all other Unicode code points unchanged. -/
def sanitize (s : Chars) : Chars := s.filter (fun c => !isInvalidChar c)

/-- Embedding of Python `os.path.splitext` (POSIX separator); a name with a
last dot preceded by some non-dot character after the last slash splits at
that dot, anything else keeps an empty extension. -/
def splitext (p : Chars) : Chars × Chars :=
  let sepIndex := rfind '/' p
  let dotIndex := rfind '.' p
  if sepIndex < dotIndex then
    let f := (sepIndex + 1).toNat
    let d := dotIndex.toNat
    if ((p.drop f).take (d - f)).any (fun c => c ≠ '.') then (p.take d, p.drop d)
    else (p, [])
  else (p, [])

/-- Candidate name built by the collision loop of `_save_single_attachment`:
the stem, an underscore, the counter, then the extension. -/
def candidateName (stem ext : Chars) (n : Nat) : Chars :=
  stem ++ '_' :: natChars n ++ ext

/-- Embedding of the `while attachment_path.exists()` loop: try candidates
with increasing counters until one is free.  `fuel` bounds the recursion;
the adequacy lemmas show that a fuel of the number of occupied entries
always suffices, so the bound is never observable. -/
def findFree (taken : Chars → Bool) (stem ext : Chars) : Nat → Nat → Chars
  | n, 0 => candidateName stem ext n
  | n, fuel + 1 =>
    if taken (candidateName stem ext n) then findFree taken stem ext (n + 1) fuel
    else candidateName stem ext n

/-- Collision resolution of `_save_single_attachment` against an abstract
set of occupied names: the desired name if free, otherwise the first free
`stem_n` + extension candidate for counters 1, 2, 3, …. -/
def resolve_collision (existing : List Chars) (filename : Chars) : Chars :=
  if filename ∈ existing then
    let se := splitext filename
    findFree (fun nm => decide (nm ∈ existing)) se.1 se.2 1 existing.length
  else filename

/-- Repeated resolve-then-create: each resolved name is added to the
occupied set before the next resolution, as successive attachment writes
do. -/
def resolveSeq (existing : List Chars) (filename : Chars) : Nat → List Chars
  | 0 => []
  | n + 1 =>
    let r := resolve_collision existing filename
    r :: resolveSeq (r :: existing) filename n

end NamePolicy

/-! ## Upload engine — `src/uploader.py` -/

namespace Uploader

/-- An `OSError` surfaced by an SMB operation, identified by the text that
Python `str(e)` would render. -/
structure SMBErr where
  msg : Chars
deriving DecidableEq

/-- Remote responses: `statRes` is the outcome of `smbclient.stat`,
`writeOk` whether opening and writing the path succeeds, and `makedirsRes`
the outcome of the bulk `smbclient.makedirs` call on a path. -/
structure SMBState where
  statRes : Chars → Except SMBErr Unit
  writeOk : Chars → Bool
  makedirsRes : Chars → Except SMBErr Unit

/-- Trace of SMB calls issued by the upload engine. -/
inductive SMBCall where
  | makedirs (p : Chars)
  | stat (p : Chars)
  | write (p : Chars)
deriving DecidableEq

/-- Embedding of `_file_exists_on_nas`: `stat` then `True`, any `OSError`
mapped to `False`. -/
def file_exists_on_nas (smb : SMBState) (p : Chars) : Bool :=
  match smb.statRes p with
  | .ok _ => true
  | .error _ => false

/-- Error test of `_ensure_directory_exists`: the fallback fires when
`str(e)` contains the substring checked against either pattern. -/
def errMatchesFallback (e : SMBErr) : Bool :=
  containsSub ("No such file".data) e.msg || containsSub ("0xc000003a".data) e.msg

/-- Slash normalization `replace("/", "\\")` applied character-wise. -/
def replSlash (c : Char) : Char := if c = '/' then '\\' else c

/-- Cumulative per-segment paths of `_create_directories_incrementally`:
walk the remaining parts left to right, skipping empty parts, extending the
running path by one backslash-joined component each step. -/
def incrPaths : List Chars → Chars → List Chars
  | [], _ => []
  | p :: rest, cur =>
    if p.isEmpty then incrPaths rest cur
    else
      let nxt := cur ++ '\\' :: p
      nxt :: incrPaths rest nxt

/-- Embedding of `_create_directories_incrementally` as the list of
`makedirs` calls it issues: split on backslashes, require more than the
four host/share parts, seed with the UNC host/share root, then one call per
remaining non-empty segment (individual failures are swallowed). -/
def create_directories_incrementally (remote_dir : Chars) : List SMBCall :=
  let parts := splitOnChar '\\' (remote_dir.map replSlash)
  if 4 < parts.length then
    match parts with
    | _ :: _ :: host :: share :: rest =>
      (incrPaths rest (['\\', '\\'] ++ host ++ '\\' :: share)).map SMBCall.makedirs
    | _ => []
  else []

/-- Embedding of `_ensure_directory_exists`: one bulk `makedirs`; on a
matching `OSError` fall back to per-segment creation.  Returns whether the
fallback ran together with the calls issued. -/
def ensure_directory_exists (smb : SMBState) (remote_dir : Chars) : Bool × List SMBCall :=
  match smb.makedirsRes remote_dir with
  | .ok _ => (false, [SMBCall.makedirs remote_dir])
  | .error e =>
    if errMatchesFallback e then
      (true, SMBCall.makedirs remote_dir :: create_directories_incrementally remote_dir)
    else (false, [SMBCall.makedirs remote_dir])

/-- Base-path normalization performed in `NASUploader.__init__`:
`strip("/")`, `replace("/", "\\")`, `rstrip("\\")`. -/
def basePathOf (raw : Chars) : Chars :=
  rstripChar '\\' ((stripChar '/' raw).map replSlash)

/-- A local file, by its path relative to the upload root and its
`stat().st_size`. -/
structure LocalFile where
  relPath : Chars
  size : Nat
deriving DecidableEq

/-- Remote target path of `_upload_single_file`: the UNC host/share/base
root joined with the relative path, every forward slash normalized. -/
def remotePathOf (host share base : Chars) (f : LocalFile) : Chars :=
  (['\\', '\\'] ++ host ++ '\\' :: share ++ '\\' :: base ++ '\\' :: f.relPath).map replSlash

/-- Embedding of `_get_parent_directory`: cut at the last backslash when it
is past position zero. -/
def get_parent_directory (p : Chars) : Chars :=
  let i := rfind '\\' p
  if 0 < i then p.take i.toNat else p

/-- Per-file outcome of `_upload_single_file`. -/
inductive UpResult where
  | uploaded
  | skipped
  | error
deriving DecidableEq

/-- Result of one `_upload_single_file` call: the outcome, the updated
memo of already-created directories, and the SMB calls issued. -/
structure UpStep where
  result : UpResult
  createdDirs : List Chars
  calls : List SMBCall
deriving DecidableEq

/-- Embedding of `_upload_single_file`: memoized parent-directory creation,
then — only when `overwrite` is false — an existence probe that skips on
success, then the write attempt mapped to `uploaded` or `error`. -/
def upload_single_file (host share base : Chars) (smb : SMBState) (overwrite : Bool)
    (createdDirs : List Chars) (f : LocalFile) : UpStep :=
  let rp := remotePathOf host share base f
  let rd := get_parent_directory rp
  let dirs1 := if rd ∈ createdDirs then createdDirs else rd :: createdDirs
  let calls1 := if rd ∈ createdDirs then ([] : List SMBCall) else (ensure_directory_exists smb rd).2
  if !overwrite then
    if file_exists_on_nas smb rp then ⟨.skipped, dirs1, calls1 ++ [.stat rp]⟩
    else if smb.writeOk rp then ⟨.uploaded, dirs1, calls1 ++ [.stat rp, .write rp]⟩
    else ⟨.error, dirs1, calls1 ++ [.stat rp, .write rp]⟩
  else
    if smb.writeOk rp then ⟨.uploaded, dirs1, calls1 ++ [.write rp]⟩
    else ⟨.error, dirs1, calls1 ++ [.write rp]⟩

/-- Outcome classification of a file independent of the directory memo;
the lemmas show `_upload_single_file` always returns exactly this. -/
def classify (host share base : Chars) (smb : SMBState) (overwrite : Bool) (f : LocalFile) :
    UpResult :=
  let rp := remotePathOf host share base f
  if !overwrite && file_exists_on_nas smb rp then .skipped
  else if smb.writeOk rp then .uploaded
  else .error

/-- Embedding of the per-file loop of `_upload_files_with_progress`:
fold over the collected files, counting uploads and summing only the
uploaded files' sizes, threading the directory memo, concatenating the
call trace. -/
def upload_files (host share base : Chars) (smb : SMBState) (overwrite : Bool) :
    List LocalFile → List Chars → (Nat × Nat) × List Chars × List SMBCall
  | [], dirs => ((0, 0), dirs, [])
  | f :: rest, dirs =>
    let step := upload_single_file host share base smb overwrite dirs f
    let r := upload_files host share base smb overwrite rest step.createdDirs
    match step.result with
    | .uploaded => ((r.1.1 + 1, r.1.2 + f.size), r.2.1, step.calls ++ r.2.2)
    | _ => ((r.1.1, r.1.2), r.2.1, step.calls ++ r.2.2)

end Uploader

/-! ## Download and retention engines — `src/archiver.py` -/

namespace Archiver

/-- One part yielded by `msg.walk()`, in the decoded view the engine
consumes: the `Content-Disposition` text, the declared filename (already
MIME-decoded; `none` for a missing header, an empty list for an empty
name, both of which Python treats as falsy), and the decoded payload
(`none` when `get_payload(decode=True)` yields nothing). -/
structure MsgPart where
  disposition : Chars
  filename : Option Chars
  payload : Option Bytes
deriving DecidableEq

/-- A fetched message as `_process_single_message` sees it: the raw RFC822
bytes, the `INTERNALDATE` already rendered by `strftime` to its
`"%Y%m%d_%H%M%S"` form, the decoded subject, whether the parsed message is
multipart, and its walked parts. -/
structure FetchedMsg where
  raw : Bytes
  dateStr : Chars
  subject : Chars
  multipart : Bool
  parts : List MsgPart
deriving DecidableEq

/-- Local filesystem: existing directories and files with their byte
content.  Paths are absolute strings. -/
structure FS where
  dirs : List Chars
  files : List (Chars × Bytes)
deriving DecidableEq

/-- First-match lookup in the file table. -/
def lookupName (p : Chars) : List (Chars × Bytes) → Option Bytes
  | [] => none
  | e :: rest => if e.1 = p then some e.2 else lookupName p rest

/-- Overwrite-or-add update of the file table. -/
def setFile (p : Chars) (b : Bytes) : List (Chars × Bytes) → List (Chars × Bytes)
  | [] => [(p, b)]
  | e :: rest => if e.1 = p then (p, b) :: rest else e :: setFile p b rest

/-- Content of the file at `p`, if one exists. -/
def FS.getFile (fs : FS) (p : Chars) : Option Bytes := lookupName p fs.files

/-- Write `b` to `p`, replacing any previous content. -/
def FS.writeFile (fs : FS) (p : Chars) (b : Bytes) : FS := ⟨fs.dirs, setFile p b fs.files⟩

/-- Python `mkdir(parents=True, exist_ok=True)` on one directory path. -/
def FS.mkdirp (fs : FS) (d : Chars) : FS :=
  if d ∈ fs.dirs then fs else ⟨d :: fs.dirs, fs.files⟩

/-- Python `Path.exists()`: a directory or a file lives at the path. -/
def FS.pathExists (fs : FS) (p : Chars) : Bool :=
  decide (p ∈ fs.dirs) || (fs.getFile p).isSome

/-- All occupied paths; its length bounds the collision-loop fuel. -/
def FS.occupied (fs : FS) : List Chars := fs.dirs ++ fs.files.map Prod.fst

/-- Directory name built by `_create_email_directory`: the formatted
internal date, the UID and the sanitized subject truncated to 50
characters, joined by underscores. -/
def emailDirName (uid : Nat) (m : FetchedMsg) : Chars :=
  m.dateStr ++ '_' :: (natChars uid ++ '_' :: (NamePolicy.sanitize m.subject).take 50)

/-- Absolute path of the per-message directory under the folder output
directory. -/
def emailDirPath (folderOutput : Chars) (uid : Nat) (m : FetchedMsg) : Chars :=
  folderOutput ++ '/' :: emailDirName uid m

/-- Fixed name of the raw-message file. -/
def emailFileName : Chars := "email.eml".data

/-- Absolute path of the raw-message file of a message. -/
def emailFilePath (folderOutput : Chars) (uid : Nat) (m : FetchedMsg) : Chars :=
  emailDirPath folderOutput uid m ++ '/' :: emailFileName

/-- Embedding of `_should_skip_email`: skip exactly when a file already
lives at the path and its stored byte length equals the fresh length. -/
def should_skip_email (fs : FS) (p : Chars) (raw : Bytes) : Bool :=
  match fs.getFile p with
  | some content => content.length == raw.length
  | none => false

/-- Embedding of `_save_single_attachment`: sanitize the decoded filename,
run the collision loop against the current filesystem, then write the
decoded payload when it is a non-empty byte string.  Returns whether a
file was written together with the new filesystem. -/
def save_single_attachment (fs : FS) (emailDir : Chars) (filename : Chars)
    (payload : Option Bytes) : Bool × FS :=
  let fname := NamePolicy.sanitize filename
  let attName :=
    if fs.pathExists (emailDir ++ '/' :: fname) then
      let se := NamePolicy.splitext fname
      NamePolicy.findFree (fun nm => fs.pathExists (emailDir ++ '/' :: nm)) se.1 se.2 1
        fs.occupied.length
    else fname
  match payload with
  | some b => if b ≠ [] then (true, fs.writeFile (emailDir ++ '/' :: attName) b) else (false, fs)
  | none => (false, fs)

/-- Part filter of `_save_attachments`: the disposition must mention
attachment or inline content, per Python substring membership. -/
def partEligible (part : MsgPart) : Bool :=
  containsSub ("attachment".data) part.disposition ||
    containsSub ("inline".data) part.disposition

/-- Walk of the part list performed by `_save_attachments`. -/
def saveAttachmentsGo (emailDir : Chars) : List MsgPart → FS → Nat × FS
  | [], fs => (0, fs)
  | part :: rest, fs =>
    if partEligible part then
      match part.filename with
      | some fn =>
        if fn ≠ [] then
          let sres := save_single_attachment fs emailDir fn part.payload
          let r := saveAttachmentsGo emailDir rest sres.2
          (if sres.1 then r.1 + 1 else r.1, r.2)
        else saveAttachmentsGo emailDir rest fs
      | none => saveAttachmentsGo emailDir rest fs
    else saveAttachmentsGo emailDir rest fs

/-- Embedding of `_save_attachments`: zero parts for a non-multipart
message, otherwise the walk over all parts. -/
def save_attachments (fs : FS) (m : FetchedMsg) (emailDir : Chars) : Nat × FS :=
  if !m.multipart then (0, fs)
  else saveAttachmentsGo emailDir m.parts fs

/-- Per-message outcome of `_process_single_message`. -/
inductive MsgResult where
  | downloaded
  | skipped
  | error
deriving DecidableEq

/-- The IMAP collaborator: the `EXISTS` count of selecting the folder
(`none` models `IMAPClientError`), the handle lists returned by
`search(["ALL"])` and `search(["BEFORE", date])`, and the per-UID fetch
result (`none` models a fetch failure or a missing UID in the reply). -/
structure IMAPState where
  selectInfo : Option Nat
  searchAll : List Nat
  searchBefore : Nat → List Nat
  fetch : Nat → Option FetchedMsg

/-- Embedding of `_process_single_message`: fetch, compute the
deterministic directory, skip on same-name-same-size, otherwise create the
directory, write the raw bytes and extract attachments. -/
def process_single_message (client : IMAPState) (folderOutput : Chars) (fs : FS)
    (uid : Nat) : (MsgResult × Nat) × FS :=
  match client.fetch uid with
  | none => ((.error, 0), fs)
  | some m =>
    let emailDir := emailDirPath folderOutput uid m
    let emailPath := emailDir ++ '/' :: emailFileName
    if should_skip_email fs emailPath m.raw then ((.skipped, 0), fs)
    else
      let fs1 := (fs.mkdirp emailDir).writeFile emailPath m.raw
      let r := save_attachments fs1 m emailDir
      ((.downloaded, r.1), r.2)

/-- Embedding of the message loop of `_download_messages`: process each
UID, counting downloaded messages and their attachments; skipped and
errored messages contribute to neither count. -/
def download_messages (client : IMAPState) (folderOutput : Chars) :
    List Nat → FS → (Nat × Nat) × FS
  | [], fs => ((0, 0), fs)
  | uid :: rest, fs =>
    let pr := process_single_message client folderOutput fs uid
    let r := download_messages client folderOutput rest pr.2
    match pr.1.1 with
    | .downloaded => ((r.1.1 + 1, r.1.2 + pr.1.2), r.2)
    | _ => ((r.1.1, r.1.2), r.2)

/-- Folder output directory used by `download_folder`:
`output_path / sanitize_filename(folder_name)`. -/
def folderOutputDir (outputPath folderName : Chars) : Chars :=
  outputPath ++ '/' :: NamePolicy.sanitize folderName

/-- Embedding of `download_folder`: select (surface errors and the empty
folder untouched), report in dry-run mode, otherwise create the folder
output directory and process every handle of `search(["ALL"])`. -/
def download_folder (client : IMAPState) (folderName outputPath : Chars) (dryRun : Bool)
    (fs : FS) : (Nat × Nat) × FS :=
  match client.selectInfo with
  | none => ((0, 0), fs)
  | some total =>
    if total = 0 then ((0, 0), fs)
    else if dryRun then ((total, 0), fs)
    else
      let folderOutput := folderOutputDir outputPath folderName
      download_messages client folderOutput client.searchAll (fs.mkdirp folderOutput)

/-- Mutating IMAP calls issued by the deletion engine. -/
inductive IMAPAction where
  | deleteMessages (uids : List Nat)
  | expunge
deriving DecidableEq

/-- Embedding of `_confirm_deletion`: two sequential prompts, each negative
answer aborting. -/
def confirm_deletion (ans1 ans2 : Bool) : Bool :=
  if !ans1 then false else if !ans2 then false else true

/-- Search criteria dispatch of `_search_messages_for_delete`. -/
def searchForDelete (client : IMAPState) (sinceDate : Option Nat) : List Nat :=
  match sinceDate with
  | some d => client.searchBefore d
  | none => client.searchAll

/-- Embedding of `delete_folder_contents`: select read-write, search with
the optional cutoff, stop on empty results, report in dry-run mode, demand
the double confirmation, then delete the matched handles and expunge.
Returns the reported count and the mutating calls issued. -/
def delete_folder_contents (client : IMAPState) (ans1 ans2 : Bool) (dryRun : Bool)
    (sinceDate : Option Nat) : Nat × List IMAPAction :=
  match client.selectInfo with
  | none => (0, [])
  | some total =>
    if total = 0 then (0, [])
    else
      let msgs := searchForDelete client sinceDate
      if msgs.length = 0 then (0, [])
      else if dryRun then (msgs.length, [])
      else if confirm_deletion ans1 ans2 then
        (msgs.length, [.deleteMessages msgs, .expunge])
      else (0, [])

end Archiver

/-! ## Theorems -/

open Config NamePolicy Uploader Archiver

/-- C4: for every remote directory path, directory creation attempts one
bulk create-with-parents call first; the per-segment fallback runs if and
only if that bulk call fails with an error whose text contains the
"No such file" substring or the status code 0xc000003a. -/
theorem ensure_directory_fallback_iff (smb : SMBState) (rd : Chars) :
    ((ensure_directory_exists smb rd).1 = true ↔
      ∃ e, smb.makedirsRes rd = .error e ∧ errMatchesFallback e = true) ∧
    (ensure_directory_exists smb rd).2 =
      SMBCall.makedirs rd ::
        (if (ensure_directory_exists smb rd).1 then
          create_directories_incrementally rd else []) := by
  unfold ensure_directory_exists
  cases h : smb.makedirsRes rd with
  | ok u => simp
  | error e =>
    dsimp only
    by_cases hm : errMatchesFallback e = true
    · rw [if_pos hm]
      exact ⟨⟨fun _ => ⟨e, rfl, hm⟩, fun _ => rfl⟩, by simp⟩
    · rw [if_neg hm]
      refine ⟨⟨fun hfalse => absurd hfalse (by simp), ?_⟩, by simp⟩
      rintro ⟨e', he', hm'⟩
      cases he'
      exact absurd hm' hm

/-- C5: a non-dry-run deletion with a non-empty match set issues the delete
and expunge calls only after two affirmative confirmations; any negative
answer returns 0 with no mutating call, and on double confirmation delete
on the matched handles is followed by an expunge and the matched count is
returned. -/
theorem delete_requires_double_confirmation (client : IMAPState) (a1 a2 : Bool)
    (sd : Option Nat) (T : Nat) (hsel : client.selectInfo = some T) (hT : T ≠ 0)
    (hne : searchForDelete client sd ≠ []) :
    (¬(a1 = true ∧ a2 = true) →
      delete_folder_contents client a1 a2 false sd = (0, [])) ∧
    (a1 = true → a2 = true →
      delete_folder_contents client a1 a2 false sd =
        ((searchForDelete client sd).length,
         [.deleteMessages (searchForDelete client sd), .expunge])) := by
  have hlen : (searchForDelete client sd).length ≠ 0 := by
    simpa [List.length_eq_zero] using hne
  unfold delete_folder_contents
  rw [hsel]
  cases a1 <;> cases a2 <;>
    simp [hT, hlen, confirm_deletion]

/-- Witness for C5 at a concrete client: a declined second confirmation
deletes nothing, a double confirmation deletes the two matched handles. -/
theorem delete_requires_double_confirmation_witness :
    (delete_folder_contents ⟨some 2, [5, 6], fun _ => [5], fun _ => none⟩
        true false false none = (0, []) ∧
     delete_folder_contents ⟨some 2, [5, 6], fun _ => [5], fun _ => none⟩
        true true false none = (2, [.deleteMessages [5, 6], .expunge])) :=
  ⟨(delete_requires_double_confirmation ⟨some 2, [5, 6], fun _ => [5], fun _ => none⟩
      true false none 2 rfl (by decide) (by decide)).1 (by simp),
   (delete_requires_double_confirmation ⟨some 2, [5, 6], fun _ => [5], fun _ => none⟩
      true true none 2 rfl (by decide) (by decide)).2 rfl rfl⟩

/-- C8: a dry-run download of an N-message folder returns (N, 0) and leaves
the filesystem untouched; a zero-message folder returns (0, 0) with no
side effects regardless of the dry-run flag. -/
theorem download_dry_run_no_side_effects (client : IMAPState)
    (folderName outputPath : Chars) (fs : FS) :
    (∀ N, client.selectInfo = some N →
      download_folder client folderName outputPath true fs = ((N, 0), fs)) ∧
    (client.selectInfo = some 0 → ∀ dr,
      download_folder client folderName outputPath dr fs = ((0, 0), fs)) := by
  constructor
  · intro N h
    unfold download_folder
    rw [h]
    by_cases hN : N = 0 <;> simp [hN]
  · intro h dr
    unfold download_folder
    rw [h]
    simp

/-- Witness for C8 at a concrete three-message folder and client. -/
theorem download_dry_run_no_side_effects_witness :
    download_folder ⟨some 3, [1, 2, 3], fun _ => [], fun _ => none⟩
        "INBOX".data "/out".data true ⟨[], []⟩ = ((3, 0), ⟨[], []⟩) ∧
    download_folder ⟨some 0, [], fun _ => [], fun _ => none⟩
        "INBOX".data "/out".data false ⟨[], []⟩ = ((0, 0), ⟨[], []⟩) :=
  ⟨(download_dry_run_no_side_effects ⟨some 3, [1, 2, 3], fun _ => [], fun _ => none⟩
      "INBOX".data "/out".data ⟨[], []⟩).1 3 rfl,
   (download_dry_run_no_side_effects ⟨some 0, [], fun _ => [], fun _ => none⟩
      "INBOX".data "/out".data ⟨[], []⟩).2 rfl false⟩

/-- C10: with overwrite disabled a file is skipped exactly when the remote
stat probe succeeds; every probe failure — whatever the error — is treated
as absence, so the write is attempted anyway. -/
theorem upload_probe_error_attempts_write (host share base : Chars) (smb : SMBState)
    (dirs : List Chars) (f : LocalFile) :
    (((upload_single_file host share base smb false dirs f).result = .skipped) ↔
      (smb.statRes (remotePathOf host share base f)).isOk = true) ∧
    (∀ e, smb.statRes (remotePathOf host share base f) = .error e →
      SMBCall.write (remotePathOf host share base f) ∈
        (upload_single_file host share base smb false dirs f).calls) := by
  unfold upload_single_file
  cases h : smb.statRes (remotePathOf host share base f) with
  | ok u =>
    have hex : file_exists_on_nas smb (remotePathOf host share base f) = true := by
      unfold file_exists_on_nas
      rw [h]
    simp only [hex, Bool.not_false, if_true, Except.isOk, Except.toBool, h]
    exact ⟨by simp, by intro e he; cases he⟩
  | error e =>
    have hex : file_exists_on_nas smb (remotePathOf host share base f) = false := by
      unfold file_exists_on_nas
      rw [h]
    simp only [hex, Bool.not_false, if_true, Bool.false_eq_true, if_false,
      Except.isOk, Except.toBool, h]
    constructor
    · by_cases hw : smb.writeOk (remotePathOf host share base f) = true <;>
        simp [hw]
    · intro e' _
      by_cases hw : smb.writeOk (remotePathOf host share base f) = true <;>
        simp [hw]

/-- Witness for C10: a permission-denied stat error still leads to a write
attempt on the target path. -/
theorem upload_probe_error_attempts_write_witness :
    SMBCall.write (remotePathOf "h".data "s".data "b".data ⟨"f.txt".data, 4⟩) ∈
      (upload_single_file "h".data "s".data "b".data
        ⟨fun _ => .error ⟨"Permission denied".data⟩, fun _ => true, fun _ => .ok ()⟩
        false [] ⟨"f.txt".data, 4⟩).calls :=
  (upload_probe_error_attempts_write "h".data "s".data "b".data
      ⟨fun _ => .error ⟨"Permission denied".data⟩, fun _ => true, fun _ => .ok ()⟩
      [] ⟨"f.txt".data, 4⟩).2 ⟨"Permission denied".data⟩ rfl

/-- Every call issued by the per-segment fallback is a makedirs call. -/
theorem incr_calls_only_makedirs (rd : Chars) :
    ∀ c ∈ create_directories_incrementally rd, ∃ q, c = SMBCall.makedirs q := by
  unfold create_directories_incrementally
  intro c hc
  dsimp only at hc
  split at hc
  · split at hc
    · obtain ⟨q, _, rfl⟩ := List.mem_map.mp hc
      exact ⟨q, rfl⟩
    · cases hc
  · cases hc

/-- Every call issued by directory creation is a makedirs call. -/
theorem ensure_calls_only_makedirs (smb : SMBState) (rd : Chars) :
    ∀ c ∈ (ensure_directory_exists smb rd).2, ∃ q, c = SMBCall.makedirs q := by
  unfold ensure_directory_exists
  cases smb.makedirsRes rd with
  | ok u =>
    intro c hc
    simp only [List.mem_singleton] at hc
    exact ⟨rd, hc⟩
  | error e =>
    dsimp only
    by_cases hm : errMatchesFallback e = true
    · rw [if_pos hm]
      intro c hc
      rcases List.mem_cons.mp hc with h | h
      · exact ⟨rd, h⟩
      · exact incr_calls_only_makedirs rd c h
    · rw [if_neg hm]
      intro c hc
      simp only [List.mem_singleton] at hc
      exact ⟨rd, hc⟩

/-- The per-file outcome never depends on the directory memo and equals
the probe-and-write classification. -/
theorem upload_single_result_eq_classify (host share base : Chars) (smb : SMBState)
    (ow : Bool) (dirs : List Chars) (f : LocalFile) :
    (upload_single_file host share base smb ow dirs f).result =
      classify host share base smb ow f := by
  unfold upload_single_file classify
  cases ow <;>
    by_cases hex : file_exists_on_nas smb (remotePathOf host share base f) = true <;>
    by_cases hw : smb.writeOk (remotePathOf host share base f) = true <;>
    simp [hex, hw]


/-- Write calls of one file go only to its own remote path and only when
the file is not classified skipped. -/
theorem upload_single_write_calls (host share base : Chars) (smb : SMBState)
    (ow : Bool) (dirs : List Chars) (f : LocalFile) (p : Chars)
    (hp : SMBCall.write p ∈ (upload_single_file host share base smb ow dirs f).calls) :
    p = remotePathOf host share base f ∧
      classify host share base smb ow f ≠ .skipped := by
  have hnw : SMBCall.write p ∈
      (if get_parent_directory (remotePathOf host share base f) ∈ dirs
        then ([] : List SMBCall)
        else (ensure_directory_exists smb
          (get_parent_directory (remotePathOf host share base f))).2) → False := by
    intro hmem
    split at hmem
    · cases hmem
    · obtain ⟨q, hq⟩ := ensure_calls_only_makedirs smb _ _ hmem
      cases hq
  revert hp
  unfold upload_single_file
  cases ow with
  | false =>
    simp only [Bool.not_false, if_true]
    by_cases hex : file_exists_on_nas smb (remotePathOf host share base f) = true
    · rw [if_pos hex]
      intro hp
      rcases List.mem_append.mp hp with h | h
      · exact (hnw h).elim
      · simp only [List.mem_singleton] at h
        cases h
    · rw [if_neg hex]
      have hcl : classify host share base smb false f ≠ .skipped := by
        unfold classify
        simp only [Bool.not_false, Bool.true_and, hex, Bool.false_eq_true, if_false]
        split <;> simp
      by_cases hw : smb.writeOk (remotePathOf host share base f) = true
      · rw [if_pos hw]
        intro hp
        rcases List.mem_append.mp hp with h | h
        · exact (hnw h).elim
        · rcases List.mem_cons.mp h with h1 | h1
          · cases h1
          · simp only [List.mem_singleton, SMBCall.write.injEq] at h1
            exact ⟨h1, hcl⟩
      · rw [if_neg hw]
        intro hp
        rcases List.mem_append.mp hp with h | h
        · exact (hnw h).elim
        · rcases List.mem_cons.mp h with h1 | h1
          · cases h1
          · simp only [List.mem_singleton, SMBCall.write.injEq] at h1
            exact ⟨h1, hcl⟩
  | true =>
    simp only [Bool.not_true, Bool.false_eq_true, if_false]
    have hcl : classify host share base smb true f ≠ .skipped := by
      unfold classify
      simp only [Bool.not_true, Bool.false_and, Bool.false_eq_true, if_false]
      split <;> simp
    by_cases hw : smb.writeOk (remotePathOf host share base f) = true
    · rw [if_pos hw]
      intro hp
      rcases List.mem_append.mp hp with h | h
      · exact (hnw h).elim
      · simp only [List.mem_singleton, SMBCall.write.injEq] at h
        exact ⟨h, hcl⟩
    · rw [if_neg hw]
      intro hp
      rcases List.mem_append.mp hp with h | h
      · exact (hnw h).elim
      · simp only [List.mem_singleton, SMBCall.write.injEq] at h
        exact ⟨h, hcl⟩


/-- Trace of the file loop at a cons: the head file's calls then the
rest's calls. -/
theorem upload_files_cons_trace (host share base : Chars) (smb : SMBState) (ow : Bool)
    (f : LocalFile) (rest : List LocalFile) (dirs0 : List Chars) :
    (upload_files host share base smb ow (f :: rest) dirs0).2.2 =
      (upload_single_file host share base smb ow dirs0 f).calls ++
        (upload_files host share base smb ow rest
          (upload_single_file host share base smb ow dirs0 f).createdDirs).2.2 := by
  conv_lhs => rw [upload_files]
  cases (upload_single_file host share base smb ow dirs0 f).result <;> rfl

theorem upload_files_cons_dirs (host share base : Chars) (smb : SMBState) (ow : Bool)
    (f : LocalFile) (rest : List LocalFile) (dirs0 : List Chars) :
    (upload_files host share base smb ow (f :: rest) dirs0).2.1 =
      (upload_files host share base smb ow rest
          (upload_single_file host share base smb ow dirs0 f).createdDirs).2.1 := by
  conv_lhs => rw [upload_files]
  cases (upload_single_file host share base smb ow dirs0 f).result <;> rfl

theorem upload_files_cons_counts (host share base : Chars) (smb : SMBState) (ow : Bool)
    (f : LocalFile) (rest : List LocalFile) (dirs0 : List Chars) :
    (upload_files host share base smb ow (f :: rest) dirs0).1 =
      (if classify host share base smb ow f = .uploaded
        then ((upload_files host share base smb ow rest
                (upload_single_file host share base smb ow dirs0 f).createdDirs).1.1 + 1,
              (upload_files host share base smb ow rest
                (upload_single_file host share base smb ow dirs0 f).createdDirs).1.2 + f.size)
        else (upload_files host share base smb ow rest
                (upload_single_file host share base smb ow dirs0 f).createdDirs).1) := by
  conv_lhs => rw [upload_files]
  rw [upload_single_result_eq_classify]
  cases classify host share base smb ow f <;> simp

/-- With overwrite enabled no existence probe is issued for a file. -/
theorem upload_single_no_stat (host share base : Chars) (smb : SMBState)
    (dirs : List Chars) (f : LocalFile) (p : Chars) :
    SMBCall.stat p ∉ (upload_single_file host share base smb true dirs f).calls := by
  have hnw : SMBCall.stat p ∈
      (if get_parent_directory (remotePathOf host share base f) ∈ dirs
        then ([] : List SMBCall)
        else (ensure_directory_exists smb
          (get_parent_directory (remotePathOf host share base f))).2) → False := by
    intro hmem
    split at hmem
    · cases hmem
    · obtain ⟨q, hq⟩ := ensure_calls_only_makedirs smb _ _ hmem
      cases hq
  unfold upload_single_file
  simp only [Bool.not_true, Bool.false_eq_true, if_false]
  by_cases hw : smb.writeOk (remotePathOf host share base f) = true
  · rw [if_pos hw]
    intro hp
    rcases List.mem_append.mp hp with h | h
    · exact hnw h
    · simp only [List.mem_singleton] at h
      cases h
  · rw [if_neg hw]
    intro hp
    rcases List.mem_append.mp hp with h | h
    · exact hnw h
    · simp only [List.mem_singleton] at h
      cases h

/-- With overwrite enabled the write on the file's remote path is always
attempted. -/
theorem upload_single_write_attempted (host share base : Chars) (smb : SMBState)
    (dirs : List Chars) (f : LocalFile) :
    SMBCall.write (remotePathOf host share base f) ∈
      (upload_single_file host share base smb true dirs f).calls := by
  unfold upload_single_file
  simp only [Bool.not_true, Bool.false_eq_true, if_false]
  by_cases hw : smb.writeOk (remotePathOf host share base f) = true
  · rw [if_pos hw]
    exact List.mem_append.mpr (Or.inr (List.mem_singleton.mpr rfl))
  · rw [if_neg hw]
    exact List.mem_append.mpr (Or.inr (List.mem_singleton.mpr rfl))

/-- C2: a non-dry-run upload returns the pair (number of files classified
uploaded, summed sizes of only those uploaded files); with overwrite off an
already-existing remote target means the file is skipped and its bytes are
never written, and with overwrite on every file's write is attempted with
no existence probe at all. -/
theorem upload_counts_and_skips (host share base : Chars) (smb : SMBState) (ow : Bool)
    (files : List LocalFile) (dirs0 : List Chars) :
    ((upload_files host share base smb ow files dirs0).1 =
      ((files.filter (fun f => classify host share base smb ow f = .uploaded)).length,
       ((files.filter (fun f => classify host share base smb ow f = .uploaded)).map
          LocalFile.size).sum)) ∧
    (ow = false → ∀ f ∈ files,
      file_exists_on_nas smb (remotePathOf host share base f) = true →
        classify host share base smb false f = .skipped) ∧
    (∀ p, SMBCall.write p ∈ (upload_files host share base smb ow files dirs0).2.2 →
      ∃ f, f ∈ files ∧ classify host share base smb ow f ≠ .skipped ∧
        p = remotePathOf host share base f) ∧
    (ow = true →
      (∀ p, SMBCall.stat p ∉ (upload_files host share base smb ow files dirs0).2.2) ∧
      ∀ f ∈ files, SMBCall.write (remotePathOf host share base f) ∈
        (upload_files host share base smb ow files dirs0).2.2) := by
  have hskip : ow = false → ∀ f ∈ files,
      file_exists_on_nas smb (remotePathOf host share base f) = true →
        classify host share base smb false f = .skipped := by
    rintro rfl f _ hex
    unfold classify
    simp [hex]
  refine ⟨?_, hskip, ?_, ?_⟩ <;> clear hskip
  · induction files generalizing dirs0 with
    | nil => simp [upload_files]
    | cons f rest ih =>
      rw [upload_files_cons_counts]
      by_cases hcl : classify host share base smb ow f = .uploaded
      · rw [if_pos hcl, ih]
        simp [List.filter_cons, hcl, Nat.add_comm]
      · rw [if_neg hcl, ih]
        simp [List.filter_cons, hcl]
  · induction files generalizing dirs0 with
    | nil =>
      intro p hp
      simp [upload_files] at hp
    | cons f rest ih =>
      intro p hp
      rw [upload_files_cons_trace] at hp
      rcases List.mem_append.mp hp with h | h
      · obtain ⟨h1, h2⟩ := upload_single_write_calls host share base smb ow dirs0 f p h
        exact ⟨f, List.mem_cons_self f rest, h2, h1⟩
      · obtain ⟨g, hg, h2, h3⟩ :=
          ih (upload_single_file host share base smb ow dirs0 f).createdDirs p h
        exact ⟨g, List.mem_cons_of_mem f hg, h2, h3⟩
  · rintro rfl
    induction files generalizing dirs0 with
    | nil =>
      refine ⟨?_, ?_⟩
      · intro p hp
        simp [upload_files] at hp
      · intro f hf
        cases hf
    | cons f rest ih =>
      obtain ⟨ihstat, ihwrite⟩ :=
        ih (upload_single_file host share base smb true dirs0 f).createdDirs
      refine ⟨?_, ?_⟩
      · intro p hp
        rw [upload_files_cons_trace] at hp
        rcases List.mem_append.mp hp with h | h
        · exact upload_single_no_stat host share base smb dirs0 f p h
        · exact ihstat p h
      · intro g hg
        rw [upload_files_cons_trace]
        rcases List.mem_cons.mp hg with h | h
        · subst h
          exact List.mem_append.mpr
            (Or.inl (upload_single_write_attempted host share base smb dirs0 g))
        · exact List.mem_append.mpr (Or.inr (ihwrite g h))

/-- Witness for C2: three local files that all already exist remotely
yield 0 uploads with overwrite off and 3 uploads (summing their sizes)
with overwrite on; the skip classification follows from the theorem. -/
theorem upload_counts_and_skips_witness :
    (upload_files "h".data "s".data "b".data
        ⟨fun _ => .ok (), fun _ => true, fun _ => .ok ()⟩ false
        [⟨"a.txt".data, 1⟩, ⟨"b.txt".data, 2⟩, ⟨"c.txt".data, 3⟩] []).1 = (0, 0) ∧
    (upload_files "h".data "s".data "b".data
        ⟨fun _ => .ok (), fun _ => true, fun _ => .ok ()⟩ true
        [⟨"a.txt".data, 1⟩, ⟨"b.txt".data, 2⟩, ⟨"c.txt".data, 3⟩] []).1 = (3, 6) ∧
    classify "h".data "s".data "b".data
        ⟨fun _ => .ok (), fun _ => true, fun _ => .ok ()⟩ false ⟨"a.txt".data, 1⟩ =
      .skipped :=
  ⟨by decide, by decide,
   (upload_counts_and_skips "h".data "s".data "b".data
      ⟨fun _ => .ok (), fun _ => true, fun _ => .ok ()⟩ false
      [⟨"a.txt".data, 1⟩, ⟨"b.txt".data, 2⟩, ⟨"c.txt".data, 3⟩] []).2.1 rfl
      ⟨"a.txt".data, 1⟩ (by decide) (by decide)⟩

/-- The regex matcher accepts an explicit digits-then-unit decomposition. -/
theorem reMatch_append (ds : Chars) (u : Char) (h1 : ds ≠ [])
    (h2 : ds.all isAsciiDigit = true) (h3 : unitLetters.contains u = true) :
    reMatch (ds ++ [u]) = some (ds, u) := by
  have h0 : ds.isEmpty = false := by
    cases ds with
    | nil => exact absurd rfl h1
    | cons a as => rfl
  have hrev : (ds ++ [u]).reverse = u :: ds.reverse := by simp
  have h3m : u ∈ unitLetters := by simpa using h3
  unfold reMatch
  rw [hrev]
  simp [h0, h2, h3, h3m]

/-- A successful regex match is exactly a digits-then-unit decomposition. -/
theorem reMatch_some (s ds : Chars) (u : Char) (h : reMatch s = some (ds, u)) :
    s = ds ++ [u] ∧ ds ≠ [] ∧ ds.all isAsciiDigit = true ∧
      unitLetters.contains u = true := by
  unfold reMatch at h
  cases hrev : s.reverse with
  | nil => rw [hrev] at h; cases h
  | cons u2 rds =>
    rw [hrev] at h
    dsimp only at h
    by_cases hc : (!rds.reverse.isEmpty && rds.reverse.all isAsciiDigit &&
        unitLetters.contains u2) = true
    · rw [if_pos hc] at h
      have hp := Option.some.inj h
      have hds : rds.reverse = ds := congrArg Prod.fst hp
      have hu : u2 = u := congrArg Prod.snd hp
      subst hds
      subst hu
      have hs : s = rds.reverse ++ [u2] := by
        have := congrArg List.reverse hrev
        simpa using this
      rw [Bool.and_eq_true, Bool.and_eq_true] at hc
      obtain ⟨⟨ha1, ha2⟩, hb⟩ := hc
      refine ⟨hs, ?_, ha2, hb⟩
      intro hnil
      rw [hnil] at ha1
      cases ha1
    · rw [if_neg hc] at h
      cases h

/-- On any successful match the parser returns via the corresponding unit
branch, yielding the unit factor times the digit value. -/
theorem parse_ok_of_reMatch (s : Chars) (ds : Chars) (u : Char)
    (h : reMatch (pyStrip s) = some (ds, u)) :
    parse_time_range s = .ok (unitFactor u * digitsVal ds) := by
  have hu := (reMatch_some _ _ _ h).2.2.2
  unfold parse_time_range
  rw [h]
  dsimp only
  have hcases : u = 'D' ∨ u = 'd' ∨ u = 'M' ∨ u = 'm' ∨ u = 'Y' ∨ u = 'y' ∨
      u = 'W' ∨ u = 'w' := by
    simpa [unitLetters] using hu
  rcases hcases with rfl | rfl | rfl | rfl | rfl | rfl | rfl | rfl
  · rw [show toUpperAscii 'D' = 'D' from by decide, if_pos rfl,
      show unitFactor 'D' = 1 from by decide, Nat.one_mul]
  · rw [show toUpperAscii 'd' = 'D' from by decide, if_pos rfl,
      show unitFactor 'd' = 1 from by decide, Nat.one_mul]
  · rw [show toUpperAscii 'M' = 'M' from by decide, if_neg (by decide),
      if_neg (by decide), if_pos rfl, show unitFactor 'M' = 30 from by decide]
  · rw [show toUpperAscii 'm' = 'M' from by decide, if_neg (by decide),
      if_neg (by decide), if_pos rfl, show unitFactor 'm' = 30 from by decide]
  · rw [show toUpperAscii 'Y' = 'Y' from by decide, if_neg (by decide),
      if_neg (by decide), if_neg (by decide), if_pos rfl,
      show unitFactor 'Y' = 365 from by decide]
  · rw [show toUpperAscii 'y' = 'Y' from by decide, if_neg (by decide),
      if_neg (by decide), if_neg (by decide), if_pos rfl,
      show unitFactor 'y' = 365 from by decide]
  · rw [show toUpperAscii 'W' = 'W' from by decide, if_neg (by decide),
      if_pos rfl, show unitFactor 'W' = 7 from by decide]
  · rw [show toUpperAscii 'w' = 'W' from by decide, if_neg (by decide),
      if_pos rfl, show unitFactor 'w' = 7 from by decide]

/-- C3: the retention parser accepts exactly optional surrounding
whitespace, one or more decimal digits and one unit letter among D/W/M/Y
case-insensitive, returning n, 7n, 30n or 365n days respectively; every
other input fails with the invalid-format error whose message names the
offending input and mentions each accepted unit letter. -/
theorem parse_time_range_grammar (s ds : Chars) (u : Char) :
    (pyStrip s = ds ++ [u] → ds ≠ [] → ds.all isAsciiDigit = true →
      unitLetters.contains u = true →
      parse_time_range s = .ok (unitFactor u * digitsVal ds)) ∧
    ((¬ ∃ ds2 u2, pyStrip s = ds2 ++ [u2] ∧ ds2 ≠ [] ∧
        ds2.all isAsciiDigit = true ∧ unitLetters.contains u2 = true) →
      parse_time_range s = .error (.invalidFormat s) ∧
      (∃ pre post, invalidFormatMsg s = pre ++ s ++ post) ∧
      'D' ∈ invalidFormatMsg s ∧ 'W' ∈ invalidFormatMsg s ∧
      'M' ∈ invalidFormatMsg s ∧ 'Y' ∈ invalidFormatMsg s) := by
  constructor
  · intro hdec h1 h2 h3
    exact parse_ok_of_reMatch s ds u (by rw [hdec]; exact reMatch_append ds u h1 h2 h3)
  · intro hno
    have hnone : reMatch (pyStrip s) = none := by
      cases hm : reMatch (pyStrip s) with
      | none => rfl
      | some du =>
        obtain ⟨hs, h1, h2, h3⟩ := reMatch_some _ du.1 du.2 (by rw [hm])
        exact absurd ⟨du.1, du.2, hs, h1, h2, h3⟩ hno
    refine ⟨by unfold parse_time_range; rw [hnone], ⟨_, _, rfl⟩, ?_, ?_, ?_, ?_⟩ <;>
    · unfold invalidFormatMsg
      exact List.mem_append.mpr (Or.inr (by decide))

/-- Witness for C3: "30D" parses to 30 days through the grammar theorem,
and "30X" fails with the invalid-format error. -/
theorem parse_time_range_grammar_witness :
    parse_time_range "30D".data = .ok (unitFactor 'D' * digitsVal "30".data) ∧
    parse_time_range "30X".data = .error (.invalidFormat "30X".data) :=
  ⟨(parse_time_range_grammar "30D".data "30".data 'D').1 (by decide) (by decide)
      (by decide) (by decide),
   ((parse_time_range_grammar "30X".data [] 'X').2 (by
      rintro ⟨ds2, u2, hq, h1, h2, h3⟩
      have hsome : reMatch (pyStrip "30X".data) = some (ds2, u2) := by
        rw [hq]
        exact reMatch_append ds2 u2 h1 h2 h3
      rw [show reMatch (pyStrip "30X".data) = none from by decide] at hsome
      cases hsome)).1⟩

/-- C9: the final unknown-unit branch of the parser is dead code — every
input either parses through one of the four unit branches or fails at the
regex with the invalid-format error. -/
theorem parse_unknown_unit_unreachable (s : Chars) :
    (∃ v, parse_time_range s = .ok v) ∨
      parse_time_range s = .error (.invalidFormat s) := by
  cases hm : reMatch (pyStrip s) with
  | none =>
    right
    unfold parse_time_range
    rw [hm]
  | some du =>
    left
    exact ⟨unitFactor du.2 * digitsVal du.1, parse_ok_of_reMatch s du.1 du.2 (by rw [hm])⟩

/-- C7: sanitization is idempotent, its result contains no colon, slash,
backslash, double quote, angle bracket or character below code point 32,
and every other code point of the input is preserved (the result is the
subsequence of valid characters, in order). -/
theorem sanitize_idempotent_and_safe (s : Chars) :
    sanitize (sanitize s) = sanitize s ∧
    (∀ c, c ∈ sanitize s → isInvalidChar c = false) ∧
    (∀ c, c ∈ s → isInvalidChar c = false → c ∈ sanitize s) ∧
    (sanitize s).Sublist s := by
  refine ⟨?_, ?_, ?_, ?_⟩
  · unfold sanitize
    rw [List.filter_filter]
    simp
  · intro c hc
    have := List.of_mem_filter hc
    simpa using this
  · intro c hc hv
    unfold sanitize
    exact List.mem_filter.mpr ⟨hc, by simp [hv]⟩
  · exact List.filter_sublist s

/-- Witness for C7 on a name with a colon, newline and Unicode accent. -/
theorem sanitize_idempotent_and_safe_witness :
    sanitize (sanitize "Ca:fé\n.pdf".data) = sanitize "Ca:fé\n.pdf".data ∧
    isInvalidChar 'é' = false ∧ 'é' ∈ sanitize "Ca:fé\n.pdf".data :=
  ⟨(sanitize_idempotent_and_safe "Ca:fé\n.pdf".data).1, by decide,
   (sanitize_idempotent_and_safe "Ca:fé\n.pdf".data).2.2.1 'é' (by decide) (by decide)⟩

/-- Evaluating the character of a decimal digit. -/
theorem digitChar_toNat (d : Nat) (hd : d < 10) :
    (Char.ofNat (48 + d)).toNat = 48 + d := by
  interval_cases d <;> decide

/-- The digit characters of a rendered number lie in the ASCII digit
range. -/
theorem natChars_digits (n : Nat) :
    ∀ c ∈ natChars n, 48 ≤ c.toNat ∧ c.toNat ≤ 57 := by
  induction n using Nat.strong_induction_on with
  | _ n ih =>
    rw [natChars]
    split
    · intro c hc
      simp only [List.mem_singleton] at hc
      subst hc
      rw [digitChar_toNat n (by omega)]
      omega
    · intro c hc
      rcases List.mem_append.mp hc with h | h
      · exact ih (n / 10) (Nat.div_lt_self (by omega) (by omega)) c h
      · simp only [List.mem_singleton] at h
        subst h
        rw [digitChar_toNat (n % 10) (Nat.mod_lt n (by omega))]
        have := Nat.mod_lt n (show 0 < 10 by omega)
        omega

/-- Reading back the rendered digits recovers the number. -/
theorem digitsVal_natChars (n : Nat) : digitsVal (natChars n) = n := by
  induction n using Nat.strong_induction_on with
  | _ n ih =>
    rw [natChars]
    split
    · rename_i h
      unfold digitsVal
      simp only [List.foldl_cons, List.foldl_nil]
      rw [digitChar_toNat n (by omega)]
      omega
    · rename_i h
      unfold digitsVal
      rw [List.foldl_append]
      have ihd := ih (n / 10) (Nat.div_lt_self (by omega) (by omega))
      unfold digitsVal at ihd
      rw [ihd]
      simp only [List.foldl_cons, List.foldl_nil]
      rw [digitChar_toNat (n % 10) (Nat.mod_lt n (by omega))]
      omega

/-- Decimal rendering is injective. -/
theorem natChars_inj {i j : Nat} (h : natChars i = natChars j) : i = j := by
  rw [← digitsVal_natChars i, ← digitsVal_natChars j, h]

/-- Collision candidates with distinct counters are distinct names. -/
theorem candidateName_inj (stem ext : Chars) {i j : Nat}
    (h : candidateName stem ext i = candidateName stem ext j) : i = j := by
  unfold candidateName at h
  have h1 := List.append_cancel_right h
  have h2 := List.append_cancel_left h1
  exact natChars_inj (List.cons.inj h2).2

/-- The collision loop stops at the first free candidate, given any free
candidate within the fuel. -/
theorem findFree_spec (taken : Chars → Bool) (stem ext : Chars) :
    ∀ fuel n, (∃ k, k ≤ fuel ∧ taken (candidateName stem ext (n + k)) = false) →
      taken (findFree taken stem ext n fuel) = false ∧
      ∃ k, k ≤ fuel ∧ findFree taken stem ext n fuel = candidateName stem ext (n + k) ∧
        ∀ j, j < k → taken (candidateName stem ext (n + j)) = true := by
  intro fuel
  induction fuel with
  | zero =>
    rintro n ⟨k, hk, hfree⟩
    have hk0 : k = 0 := Nat.le_zero.mp hk
    subst hk0
    rw [Nat.add_zero] at hfree
    exact ⟨hfree, 0, Nat.le_refl 0, by rw [Nat.add_zero]; rfl,
      fun j hj => absurd hj (Nat.not_lt_zero j)⟩
  | succ fuel ih =>
    rintro n ⟨k, hk, hfree⟩
    by_cases ht : taken (candidateName stem ext n) = true
    · have hk0 : k ≠ 0 := by
        rintro rfl
        rw [Nat.add_zero] at hfree
        rw [ht] at hfree
        cases hfree
      obtain ⟨k2, rfl⟩ : ∃ k2, k = k2 + 1 := ⟨k - 1, by omega⟩
      have hex : ∃ k3, k3 ≤ fuel ∧ taken (candidateName stem ext (n + 1 + k3)) = false :=
        ⟨k2, by omega, by rw [show n + 1 + k2 = n + (k2 + 1) from by omega]; exact hfree⟩
      obtain ⟨hfree2, k3, hk3, heq, hmin⟩ := ih (n + 1) hex
      rw [show findFree taken stem ext n (fuel + 1) =
          findFree taken stem ext (n + 1) fuel from by rw [findFree, if_pos ht]]
      refine ⟨hfree2, k3 + 1, by omega, by rw [heq]; congr 1; omega, ?_⟩
      intro j hj
      cases j with
      | zero => simpa using ht
      | succ j2 =>
        have := hmin j2 (by omega)
        rw [show n + (j2 + 1) = n + 1 + j2 from by omega]
        exact this
    · have hfalse : taken (candidateName stem ext n) = false := by
        cases h : taken (candidateName stem ext n) with
        | false => rfl
        | true => exact absurd h ht
      rw [show findFree taken stem ext n (fuel + 1) = candidateName stem ext n from by
        rw [findFree, if_neg ht]]
      exact ⟨hfalse, 0, Nat.zero_le _, by rw [Nat.add_zero],
        fun j hj => absurd hj (Nat.not_lt_zero j)⟩

/-- Pigeonhole adequacy: when the taken names embed injectively into a
finite list, some candidate within its length is free. -/
theorem exists_free_le (taken : Chars → Bool) (embed : Chars → Chars)
    (hinj : ∀ x y, embed x = embed y → x = y)
    (L : List Chars) (hL : ∀ p, taken p = true → embed p ∈ L)
    (stem ext : Chars) (n : Nat) :
    ∃ k, k ≤ L.length ∧ taken (candidateName stem ext (n + k)) = false := by
  by_contra hc
  push_neg at hc
  have htk : ∀ k, k ≤ L.length → taken (candidateName stem ext (n + k)) = true := by
    intro k hk
    cases h : taken (candidateName stem ext (n + k)) with
    | false => exact absurd h (hc k hk)
    | true => rfl
  have hnd : ((List.range (L.length + 1)).map
      (fun k => embed (candidateName stem ext (n + k)))).Nodup := by
    refine List.Nodup.map ?_ (List.nodup_range (L.length + 1))
    intro a b hab
    have := candidateName_inj stem ext (hinj _ _ hab)
    omega
  have hsub : ((List.range (L.length + 1)).map
      (fun k => embed (candidateName stem ext (n + k)))) ⊆ L := by
    intro c hcmem
    obtain ⟨k, hk, rfl⟩ := List.mem_map.mp hcmem
    have hk2 : k ≤ L.length := Nat.lt_succ_iff.mp (List.mem_range.mp hk)
    exact hL _ (htk k hk2)
  have hlen := (List.subperm_of_subset hnd hsub).length_le
  rw [List.length_map, List.length_range] at hlen
  omega

/-- The collision loop never returns an occupied name. -/
theorem resolve_collision_free (existing : List Chars) (filename : Chars) :
    resolve_collision existing filename ∉ existing := by
  unfold resolve_collision
  by_cases hmem : filename ∈ existing
  · rw [if_pos hmem]
    obtain ⟨k, hk, hfree⟩ := exists_free_le (fun nm => decide (nm ∈ existing))
      (fun x => x) (fun x y h => h) existing (fun p hp => of_decide_eq_true hp)
      (splitext filename).1 (splitext filename).2 1
    have hspec := (findFree_spec (fun nm => decide (nm ∈ existing))
      (splitext filename).1 (splitext filename).2 existing.length 1 ⟨k, hk, hfree⟩).1
    exact decide_eq_false_iff_not.mp hspec
  · rw [if_neg hmem]
    exact hmem

/-- Results of successive resolutions avoid the starting occupied set. -/
theorem resolveSeq_not_mem (filename : Chars) :
    ∀ (N : Nat) (existing : List Chars),
      ∀ r ∈ resolveSeq existing filename N, r ∉ existing := by
  intro N
  induction N with
  | zero =>
    intro ex r hr
    cases hr
  | succ n ih =>
    intro ex r hr
    rw [resolveSeq] at hr
    rcases List.mem_cons.mp hr with h | h
    · subst h
      exact resolve_collision_free ex filename
    · intro hmem
      exact ih (resolve_collision ex filename :: ex) r h (List.mem_cons_of_mem _ hmem)

/-- C6: collision resolution terminates on any finite occupied set and
returns a name free at call time — the desired name when free, otherwise
the first stem-counter-extension candidate — and N successive
resolve-then-create rounds yield N pairwise distinct names, so earlier
files are never overwritten. -/
theorem resolve_collision_correct (existing : List Chars) (filename : Chars) (N : Nat) :
    resolve_collision existing filename ∉ existing ∧
    (filename ∉ existing → resolve_collision existing filename = filename) ∧
    (filename ∈ existing →
      ∃ n, 1 ≤ n ∧
        resolve_collision existing filename =
          candidateName (splitext filename).1 (splitext filename).2 n ∧
        ∀ m, 1 ≤ m → m < n →
          candidateName (splitext filename).1 (splitext filename).2 m ∈ existing) ∧
    (resolveSeq existing filename N).length = N ∧
    (resolveSeq existing filename N).Nodup := by
  refine ⟨resolve_collision_free existing filename, ?_, ?_, ?_, ?_⟩
  · intro hmem
    unfold resolve_collision
    rw [if_neg hmem]
  · intro hmem
    unfold resolve_collision
    rw [if_pos hmem]
    obtain ⟨k, hk, hfree⟩ := exists_free_le (fun nm => decide (nm ∈ existing))
      (fun x => x) (fun x y h => h) existing (fun p hp => of_decide_eq_true hp)
      (splitext filename).1 (splitext filename).2 1
    obtain ⟨_, k2, hk2, heq, hmin⟩ := findFree_spec (fun nm => decide (nm ∈ existing))
      (splitext filename).1 (splitext filename).2 existing.length 1 ⟨k, hk, hfree⟩
    refine ⟨1 + k2, by omega, heq, ?_⟩
    intro m hm1 hm2
    have := hmin (m - 1) (by omega)
    rw [show 1 + (m - 1) = m from by omega] at this
    exact of_decide_eq_true this
  · induction N generalizing existing with
    | zero => rfl
    | succ n ih =>
      rw [resolveSeq]
      simp only [List.length_cons]
      rw [ih]
  · induction N generalizing existing with
    | zero => exact List.nodup_nil
    | succ n ih =>
      rw [resolveSeq]
      refine List.nodup_cons.mpr ⟨?_, ih _⟩
      intro hmem
      exact resolveSeq_not_mem filename n _ _ hmem (List.mem_cons_self _ _)

/-- Witness for C6: a free name is returned unchanged, an occupied one is
replaced by a name outside the occupied set. -/
theorem resolve_collision_correct_witness :
    resolve_collision ["b.txt".data] "a.txt".data = "a.txt".data ∧
    resolve_collision ["a.txt".data, "a_1.txt".data] "a.txt".data ∉
      ["a.txt".data, "a_1.txt".data] :=
  ⟨(resolve_collision_correct ["b.txt".data] "a.txt".data 0).2.1 (by decide),
   (resolve_collision_correct ["a.txt".data, "a_1.txt".data] "a.txt".data 0).1⟩

/-- Looking up the path just written yields the new content. -/
theorem lookupName_setFile_self (p : Chars) (b : Bytes) (fl : List (Chars × Bytes)) :
    lookupName p (setFile p b fl) = some b := by
  induction fl with
  | nil => simp [setFile, lookupName]
  | cons e rest ih =>
    unfold setFile
    by_cases h : e.1 = p
    · rw [if_pos h]
      unfold lookupName
      rw [if_pos rfl]
    · rw [if_neg h]
      unfold lookupName
      rw [if_neg h]
      exact ih

/-- Writing one path leaves every other lookup unchanged. -/
theorem lookupName_setFile_ne (p q : Chars) (b : Bytes) (fl : List (Chars × Bytes))
    (h : q ≠ p) : lookupName q (setFile p b fl) = lookupName q fl := by
  induction fl with
  | nil =>
    show lookupName q [(p, b)] = lookupName q []
    unfold lookupName
    rw [if_neg (fun he : p = q => h he.symm)]
    rfl
  | cons e rest ih =>
    unfold setFile
    by_cases he : e.1 = p
    · rw [if_pos he]
      show lookupName q ((p, b) :: rest) = lookupName q (e :: rest)
      unfold lookupName
      rw [if_neg (fun hpq : p = q => h hpq.symm),
        if_neg (fun hq2 : e.1 = q => h (by rw [← hq2, he]))]
    · rw [if_neg he]
      show lookupName q (e :: setFile p b rest) = lookupName q (e :: rest)
      unfold lookupName
      by_cases hq : e.1 = q
      · rw [if_pos hq, if_pos hq]
      · rw [if_neg hq, if_neg hq]
        exact ih

/-- A successful lookup means the path is among the stored paths. -/
theorem lookupName_mem_map_fst (p : Chars) (fl : List (Chars × Bytes)) (b : Bytes)
    (h : lookupName p fl = some b) : p ∈ fl.map Prod.fst := by
  induction fl with
  | nil => cases h
  | cons e rest ih =>
    unfold lookupName at h
    by_cases he : e.1 = p
    · exact List.mem_map.mpr ⟨e, List.mem_cons_self e rest, he⟩
    · rw [if_neg he] at h
      exact List.mem_cons_of_mem _ (ih h)

/-- The path chosen for an attachment is always free at write time, so
writing it preserves every existing file. -/
theorem save_single_attachment_preserves (fs : FS) (emailDir filename : Chars)
    (payload : Option Bytes) :
    ∀ q c, lookupName q fs.files = some c →
      lookupName q (save_single_attachment fs emailDir filename payload).2.files = some c := by
  intro q c hq
  unfold save_single_attachment
  cases payload with
  | none => exact hq
  | some b =>
    dsimp only
    by_cases hb : b ≠ []
    · rw [if_pos hb]
      dsimp only [FS.writeFile]
      set fname := NamePolicy.sanitize filename with hfname
      have hfree : ∀ nm, fs.pathExists (emailDir ++ '/' :: nm) = false →
          lookupName (emailDir ++ '/' :: nm) fs.files = none := by
        intro nm hnm
        unfold FS.pathExists at hnm
        rcases h2 : fs.getFile (emailDir ++ '/' :: nm) with _ | b2
        · exact h2
        · rw [h2] at hnm
          simp at hnm
      by_cases hex : fs.pathExists (emailDir ++ '/' :: fname) = true
      · rw [if_pos hex]
        have hinj : ∀ x y : Chars, emailDir ++ '/' :: x = emailDir ++ '/' :: y → x = y := by
          intro x y hxy
          exact (List.cons.inj (List.append_cancel_left hxy)).2
        obtain ⟨k, hk, hfreek⟩ := exists_free_le
          (fun nm => fs.pathExists (emailDir ++ '/' :: nm))
          (fun nm => emailDir ++ '/' :: nm) hinj fs.occupied
          (fun nm hnm => by
            unfold FS.pathExists at hnm
            rw [Bool.or_eq_true] at hnm
            rcases hnm with h2 | h2
            · exact List.mem_append.mpr (Or.inl (of_decide_eq_true h2))
            · obtain ⟨b2, hb2⟩ := Option.isSome_iff_exists.mp h2
              exact List.mem_append.mpr
                (Or.inr (lookupName_mem_map_fst _ _ _ hb2)))
          (NamePolicy.splitext fname).1 (NamePolicy.splitext fname).2 1
        have hspec := (findFree_spec (fun nm => fs.pathExists (emailDir ++ '/' :: nm))
          (NamePolicy.splitext fname).1 (NamePolicy.splitext fname).2
          fs.occupied.length 1 ⟨k, hk, hfreek⟩).1
        have hnone := hfree _ hspec
        rw [lookupName_setFile_ne _ _ _ _ (by
          intro he
          rw [← he] at hnone
          rw [hq] at hnone
          cases hnone)]
        exact hq
      · rw [if_neg hex]
        have hnone := hfree fname (by
          cases h2 : fs.pathExists (emailDir ++ '/' :: fname) with
          | false => rfl
          | true => exact absurd h2 hex)
        rw [lookupName_setFile_ne _ _ _ _ (by
          intro he
          rw [← he] at hnone
          rw [hq] at hnone
          cases hnone)]
        exact hq
    · rw [if_neg hb]
      exact hq

/-- Attachment extraction never disturbs files already present. -/
theorem saveAttachmentsGo_preserves (emailDir : Chars) :
    ∀ (parts : List MsgPart) (fs : FS) (q : Chars) (c : Bytes),
      lookupName q fs.files = some c →
      lookupName q (saveAttachmentsGo emailDir parts fs).2.files = some c := by
  intro parts
  induction parts with
  | nil =>
    intro fs q c hq
    exact hq
  | cons part rest ih =>
    intro fs q c hq
    unfold saveAttachmentsGo
    by_cases hel : partEligible part = true
    · rw [if_pos hel]
      cases hfn : part.filename with
      | none => exact ih fs q c hq
      | some fn =>
        dsimp only
        by_cases hne : fn ≠ []
        · rw [if_pos hne]
          dsimp only
          exact ih _ q c (save_single_attachment_preserves fs emailDir fn part.payload q c hq)
        · rw [if_neg hne]
          exact ih fs q c hq
    · rw [if_neg hel]
      exact ih fs q c hq

/-- Attachment extraction leaves the directory table unchanged. -/
theorem saveAttachmentsGo_dirs (emailDir : Chars) :
    ∀ (parts : List MsgPart) (fs : FS),
      (saveAttachmentsGo emailDir parts fs).2.dirs = fs.dirs := by
  intro parts
  induction parts with
  | nil =>
    intro fs
    rfl
  | cons part rest ih =>
    intro fs
    unfold saveAttachmentsGo
    by_cases hel : partEligible part = true
    · rw [if_pos hel]
      cases hfn : part.filename with
      | none => exact ih fs
      | some fn =>
        dsimp only
        by_cases hne : fn ≠ []
        · rw [if_pos hne]
          dsimp only
          rw [ih]
          unfold save_single_attachment
          cases part.payload with
          | none => rfl
          | some b =>
            dsimp only
            by_cases hb : b ≠ []
            · rw [if_pos hb]
              rfl
            · rw [if_neg hb]
        · rw [if_neg hne]
          exact ih fs
    · rw [if_neg hel]
      exact ih fs

/-- Splitting at a separator character absent from both prefixes is
unambiguous. -/
theorem sep_append_inj (sep : Char) :
    ∀ (a b x y : Chars), sep ∉ a → sep ∉ b → a ++ sep :: x = b ++ sep :: y →
      a = b ∧ x = y := by
  intro a
  induction a with
  | nil =>
    intro b x y _ hb h
    cases b with
    | nil =>
      simp only [List.nil_append] at h
      exact ⟨rfl, (List.cons.inj h).2⟩
    | cons c cs =>
      simp only [List.nil_append, List.cons_append] at h
      obtain ⟨h1, _⟩ := List.cons.inj h
      exact absurd (show sep ∈ c :: cs by rw [h1]; exact List.mem_cons_self c cs) hb
  | cons c cs ih =>
    intro b x y ha hb h
    cases b with
    | nil =>
      simp only [List.cons_append, List.nil_append] at h
      obtain ⟨h1, _⟩ := List.cons.inj h
      exact absurd (show sep ∈ c :: cs by rw [← h1]; exact List.mem_cons_self c cs) ha
    | cons d ds =>
      simp only [List.cons_append] at h
      obtain ⟨h1, h2⟩ := List.cons.inj h
      obtain ⟨h3, h4⟩ := ih ds x y (fun hm => ha (List.mem_cons_of_mem c hm))
        (fun hm => hb (List.mem_cons_of_mem d hm)) h2
      exact ⟨by rw [h1, h3], h4⟩

/-- Rendered numbers contain no underscore. -/
theorem natChars_no_underscore (n : Nat) : '_' ∉ natChars n := by
  intro hm
  have h2 := natChars_digits n '_' hm
  rw [show ('_').toNat = 95 from by decide] at h2
  omega

/-- Distinct UIDs give distinct message directory names when the formatted
dates have the common strftime length. -/
theorem emailDirName_inj (u v : Nat) (mu mv : FetchedMsg)
    (hlen : mu.dateStr.length = mv.dateStr.length)
    (h : emailDirName u mu = emailDirName v mv) : u = v := by
  unfold emailDirName at h
  obtain ⟨_, h3⟩ := List.append_inj h hlen
  have h4 := (List.cons.inj h3).2
  obtain ⟨h5, _⟩ := sep_append_inj '_' _ _ _ _ (natChars_no_underscore u)
    (natChars_no_underscore v) h4
  exact natChars_inj h5

/-- Distinct UIDs give distinct raw-message file paths. -/
theorem emailFilePath_inj (out : Chars) (u v : Nat) (mu mv : FetchedMsg)
    (hlen : mu.dateStr.length = mv.dateStr.length)
    (h : emailFilePath out u mu = emailFilePath out v mv) : u = v := by
  unfold emailFilePath emailDirPath at h
  have h1 := List.append_cancel_right h
  have h2 := (List.cons.inj (List.append_cancel_left h1)).2
  exact emailDirName_inj u v mu mv hlen h2

/-- Creating a directory leaves the file table unchanged. -/
theorem mkdirp_files (fs : FS) (d : Chars) : (fs.mkdirp d).files = fs.files := by
  unfold FS.mkdirp
  split <;> rfl

/-- Creating a directory preserves existing directories. -/
theorem mkdirp_dirs_mono (fs : FS) (d d2 : Chars) (h : d2 ∈ fs.dirs) :
    d2 ∈ (fs.mkdirp d).dirs := by
  unfold FS.mkdirp
  split
  · exact h
  · exact List.mem_cons_of_mem d h

/-- The created directory is present afterwards. -/
theorem mkdirp_self_mem (fs : FS) (d : Chars) : d ∈ (fs.mkdirp d).dirs := by
  unfold FS.mkdirp
  split
  · assumption
  · exact List.mem_cons_self d fs.dirs

/-- Attachment extraction leaves the directory table unchanged. -/
theorem save_attachments_dirs (fs : FS) (m : FetchedMsg) (dir : Chars) :
    (save_attachments fs m dir).2.dirs = fs.dirs := by
  unfold save_attachments
  split
  · rfl
  · exact saveAttachmentsGo_dirs dir m.parts fs

/-- A fetched message ends with its raw file stored at its deterministic
path with the fetched byte length, whether skipped or freshly written. -/
theorem process_single_message_good (client : IMAPState) (out : Chars) (fs : FS)
    (uid : Nat) (m : FetchedMsg) (hf : client.fetch uid = some m) :
    ∃ c, lookupName (emailFilePath out uid m)
        (process_single_message client out fs uid).2.files = some c ∧
      c.length = m.raw.length := by
  unfold process_single_message
  rw [hf]
  dsimp only
  by_cases hskip : should_skip_email fs
      (emailDirPath out uid m ++ '/' :: emailFileName) m.raw = true
  · rw [if_pos hskip]
    unfold should_skip_email at hskip
    cases hg : fs.getFile (emailDirPath out uid m ++ '/' :: emailFileName) with
    | none =>
      rw [hg] at hskip
      cases hskip
    | some content =>
      rw [hg] at hskip
      dsimp only at hskip
      exact ⟨content, hg, eq_of_beq hskip⟩
  · rw [if_neg hskip]
    dsimp only
    refine ⟨m.raw, ?_, rfl⟩
    have hbase : lookupName (emailFilePath out uid m)
        ((fs.mkdirp (emailDirPath out uid m)).writeFile
          (emailDirPath out uid m ++ '/' :: emailFileName) m.raw).files = some m.raw :=
      lookupName_setFile_self _ _ _
    unfold save_attachments
    cases hmp : m.multipart with
    | false => exact hbase
    | true => exact saveAttachmentsGo_preserves _ m.parts _ _ _ hbase

/-- Processing one message can change only its own raw-file path among the
already-present files. -/
theorem process_single_message_preserves (client : IMAPState) (out : Chars) (fs : FS)
    (uid : Nat) (q : Chars) (c : Bytes)
    (hq : lookupName q fs.files = some c)
    (hne : ∀ m, client.fetch uid = some m → q ≠ emailFilePath out uid m) :
    lookupName q (process_single_message client out fs uid).2.files = some c := by
  unfold process_single_message
  cases hf : client.fetch uid with
  | none => exact hq
  | some m =>
    dsimp only
    by_cases hskip : should_skip_email fs
        (emailDirPath out uid m ++ '/' :: emailFileName) m.raw = true
    · rw [if_pos hskip]
      exact hq
    · rw [if_neg hskip]
      dsimp only
      have hq2 : lookupName q ((fs.mkdirp (emailDirPath out uid m)).writeFile
          (emailDirPath out uid m ++ '/' :: emailFileName) m.raw).files = some c := by
        have hne2 : q ≠ emailDirPath out uid m ++ '/' :: emailFileName := hne m hf
        show lookupName q (setFile (emailDirPath out uid m ++ '/' :: emailFileName)
          m.raw (fs.mkdirp (emailDirPath out uid m)).files) = some c
        rw [lookupName_setFile_ne _ _ _ _ hne2, mkdirp_files]
        exact hq
      unfold save_attachments
      cases hmp : m.multipart with
      | false => exact hq2
      | true => exact saveAttachmentsGo_preserves _ m.parts _ _ _ hq2

/-- Processing one message only adds directories. -/
theorem process_dirs_mono (client : IMAPState) (out : Chars) (fs : FS) (uid : Nat)
    (d : Chars) (h : d ∈ fs.dirs) :
    d ∈ (process_single_message client out fs uid).2.dirs := by
  unfold process_single_message
  cases hf : client.fetch uid with
  | none => exact h
  | some m =>
    dsimp only
    by_cases hskip : should_skip_email fs
        (emailDirPath out uid m ++ '/' :: emailFileName) m.raw = true
    · rw [if_pos hskip]
      exact h
    · rw [if_neg hskip]
      dsimp only
      rw [save_attachments_dirs]
      exact mkdirp_dirs_mono fs _ d h

/-- Final filesystem of the message loop at a cons. -/
theorem download_messages_cons_fs (client : IMAPState) (out : Chars) (uid : Nat)
    (rest : List Nat) (fs : FS) :
    (download_messages client out (uid :: rest) fs).2 =
      (download_messages client out rest
        (process_single_message client out fs uid).2).2 := by
  conv_lhs => rw [download_messages]
  cases (process_single_message client out fs uid).1.1 <;> rfl

/-- Counts of the message loop at a cons. -/
theorem download_messages_cons_counts (client : IMAPState) (out : Chars) (uid : Nat)
    (rest : List Nat) (fs : FS) :
    (download_messages client out (uid :: rest) fs).1 =
      (if (process_single_message client out fs uid).1.1 = .downloaded then
        ((download_messages client out rest
            (process_single_message client out fs uid).2).1.1 + 1,
         (download_messages client out rest
            (process_single_message client out fs uid).2).1.2 +
           (process_single_message client out fs uid).1.2)
       else (download_messages client out rest
          (process_single_message client out fs uid).2).1) := by
  conv_lhs => rw [download_messages]
  cases h : (process_single_message client out fs uid).1.1 <;> simp [h]

/-- The message loop preserves any file living at a path distinct from
every processed message's own raw-file path. -/
theorem download_messages_preserves (client : IMAPState) (out : Chars) :
    ∀ (msgs : List Nat) (fs : FS) (q : Chars) (c : Bytes),
      (∀ v ∈ msgs, ∀ mv, client.fetch v = some mv → q ≠ emailFilePath out v mv) →
      lookupName q fs.files = some c →
      lookupName q (download_messages client out msgs fs).2.files = some c := by
  intro msgs
  induction msgs with
  | nil =>
    intro fs q c _ hq
    exact hq
  | cons v rest ih =>
    intro fs q c hne hq
    rw [download_messages_cons_fs]
    exact ih _ q c (fun w hw mw hfw => hne w (List.mem_cons_of_mem v hw) mw hfw)
      (process_single_message_preserves client out fs v q c hq
        (fun mv hfv => hne v (List.mem_cons_self v rest) mv hfv))

/-- The message loop only adds directories. -/
theorem download_messages_dirs (client : IMAPState) (out : Chars) :
    ∀ (msgs : List Nat) (fs : FS) (d : Chars), d ∈ fs.dirs →
      d ∈ (download_messages client out msgs fs).2.dirs := by
  intro msgs
  induction msgs with
  | nil =>
    intro fs d h
    exact h
  | cons v rest ih =>
    intro fs d h
    rw [download_messages_cons_fs]
    exact ih _ d (process_dirs_mono client out fs v d h)

/-- After one full pass over pairwise-distinct UIDs, every fetchable
message's raw file is stored with the fetched byte length. -/
theorem download_messages_good (client : IMAPState) (out : Chars) (L : Nat) :
    ∀ (msgs : List Nat) (fs : FS), msgs.Nodup →
      (∀ u ∈ msgs, ∀ m, client.fetch u = some m → m.dateStr.length = L) →
      ∀ u ∈ msgs, ∀ m, client.fetch u = some m →
        ∃ c, lookupName (emailFilePath out u m)
            (download_messages client out msgs fs).2.files = some c ∧
          c.length = m.raw.length := by
  intro msgs
  induction msgs with
  | nil =>
    intro fs _ _ u hu
    cases hu
  | cons v rest ih =>
    intro fs hnd hdate u hu m hm
    rw [download_messages_cons_fs]
    rcases List.mem_cons.mp hu with rfl | hu2
    · obtain ⟨c, hc, hlen⟩ := process_single_message_good client out fs u m hm
      refine ⟨c, ?_, hlen⟩
      refine download_messages_preserves client out rest _ _ c ?_ hc
      intro w hw mw hfw heq
      have huw : u = w := emailFilePath_inj out u w m mw (by
        rw [hdate u (List.mem_cons_self u rest) m hm,
          hdate w (List.mem_cons_of_mem u hw) mw hfw]) heq
      subst huw
      exact (List.nodup_cons.mp hnd).1 hw
    · exact ih _ (List.nodup_cons.mp hnd).2
        (fun w hw mw hfw => hdate w (List.mem_cons_of_mem v hw) mw hfw) u hu2 m hm

/-- When every fetchable message already passes the skip test, the loop
downloads nothing and leaves the filesystem untouched. -/
theorem download_messages_all_skip (client : IMAPState) (out : Chars) :
    ∀ (msgs : List Nat) (fs : FS),
      (∀ u ∈ msgs, ∀ m, client.fetch u = some m →
        should_skip_email fs (emailFilePath out u m) m.raw = true) →
      download_messages client out msgs fs = ((0, 0), fs) := by
  intro msgs
  induction msgs with
  | nil =>
    intro fs _
    rfl
  | cons v rest ih =>
    intro fs hsk
    have hproc : process_single_message client out fs v = ((.skipped, 0), fs) ∨
        process_single_message client out fs v = ((.error, 0), fs) := by
      unfold process_single_message
      cases hf : client.fetch v with
      | none => right; rfl
      | some m =>
        left
        dsimp only
        have hs2 : should_skip_email fs
            (emailDirPath out v m ++ '/' :: emailFileName) m.raw = true :=
          hsk v (List.mem_cons_self v rest) m hf
        rw [if_pos hs2]
    have hrest := ih fs (fun u hu m hm => hsk u (List.mem_cons_of_mem v hu) m hm)
    rcases hproc with hp | hp <;>
    · rw [download_messages, hp]
      dsimp only
      rw [hrest]

/-- C1: a message whose raw file already exists at its deterministic path
with the fetched byte length is classified skipped, with no write of any
kind; consequently a second identical non-dry-run download of the same
folder finds every message skipped, returning (0, 0) and leaving the
filesystem exactly as the first run left it. -/
theorem download_skip_dedup_idempotent (client : IMAPState)
    (folderName outputPath : Chars) (fs : FS) (L : Nat)
    (hnd : client.searchAll.Nodup)
    (hdate : ∀ u ∈ client.searchAll, ∀ m, client.fetch u = some m →
      m.dateStr.length = L) :
    (∀ uid m content, client.fetch uid = some m →
      fs.getFile (emailFilePath (folderOutputDir outputPath folderName) uid m) =
        some content →
      content.length = m.raw.length →
      process_single_message client (folderOutputDir outputPath folderName) fs uid =
        ((.skipped, 0), fs)) ∧
    (download_folder client folderName outputPath false
        (download_folder client folderName outputPath false fs).2 =
      ((0, 0), (download_folder client folderName outputPath false fs).2)) := by
  constructor
  · intro uid m content hf hg hlen
    unfold process_single_message
    rw [hf]
    dsimp only
    have hskip : should_skip_email fs
        (emailDirPath (folderOutputDir outputPath folderName) uid m ++
          '/' :: emailFileName) m.raw = true := by
      unfold should_skip_email
      rw [show fs.getFile (emailDirPath (folderOutputDir outputPath folderName) uid m ++
          '/' :: emailFileName) = some content from hg]
      dsimp only
      rw [hlen]
      exact beq_self_eq_true _
    rw [if_pos hskip]
  · unfold download_folder
    cases hsel : client.selectInfo with
    | none => rfl
    | some T =>
      dsimp only
      by_cases hT : T = 0
      · rw [if_pos hT, if_pos hT]
      · rw [if_neg hT, if_neg hT]
        rw [if_neg (by simp), if_neg (by simp)]
        set out := folderOutputDir outputPath folderName with hout
        set fs1 := (download_messages client out client.searchAll (fs.mkdirp out)).2
          with hfs1
        have hdir : out ∈ fs1.dirs := by
          rw [hfs1]
          exact download_messages_dirs client out client.searchAll (fs.mkdirp out) out
            (mkdirp_self_mem fs out)
        have hmk : fs1.mkdirp out = fs1 := by
          unfold FS.mkdirp
          rw [if_pos hdir]
        rw [hmk]
        refine download_messages_all_skip client out client.searchAll fs1 ?_
        intro u hu m hm
        obtain ⟨c, hc, hlen⟩ := download_messages_good client out L client.searchAll
          (fs.mkdirp out) hnd hdate u hu m hm
        unfold should_skip_email
        rw [show fs1.getFile (emailFilePath out u m) = some c from hc]
        dsimp only
        rw [hlen]
        exact beq_self_eq_true _

/-- Witness for C1: a one-message folder downloaded twice yields zero new
downloads on the second run, which leaves the stored files untouched. -/
theorem download_skip_dedup_idempotent_witness :
    download_folder
        ⟨some 1, [7], fun _ => [],
          fun _ => some ⟨[1, 2, 3], "20240101_000000".data, "Hi".data, false, []⟩⟩
        "INBOX".data "/out".data false
        (download_folder
          ⟨some 1, [7], fun _ => [],
            fun _ => some ⟨[1, 2, 3], "20240101_000000".data, "Hi".data, false, []⟩⟩
          "INBOX".data "/out".data false ⟨[], []⟩).2 =
      ((0, 0),
        (download_folder
          ⟨some 1, [7], fun _ => [],
            fun _ => some ⟨[1, 2, 3], "20240101_000000".data, "Hi".data, false, []⟩⟩
          "INBOX".data "/out".data false ⟨[], []⟩).2) :=
  (download_skip_dedup_idempotent
    ⟨some 1, [7], fun _ => [],
      fun _ => some ⟨[1, 2, 3], "20240101_000000".data, "Hi".data, false, []⟩⟩
    "INBOX".data "/out".data ⟨[], []⟩ 15 (by decide)
    (by
      intro u hu m hm
      injection hm with h
      rw [← h]
      decide)).2
